import Mathlib

/-
Verification development for the bubble-tea-playground repository.

The repository contains several near-duplicate variants of a terminal
file-browsing program.  The parts relevant to the claims are:

  * pkg/git-project-file-summarizer/domain.go : the File struct, the
    FetchSize method, prettyPrintBytes, and the ignore-aware walker
    listGitProjectFiles.
  * unnamed/part_001 : three variants of the fancy-list program.
    The first (message-driven, Elm-style) variant handles the enter key by
    marking the selected entry as fetching synchronously and returning a
    command; fetch completions arrive as afterFetch messages that are merged
    into the list by path.  The second (pointer-based) variant handles enter
    by spawning a goroutine whose body itself sets the fetching flag, and
    synchronizes through the updateFn function that rebuilds the Bubbles
    list from the domain list while preserving the selection.

Shallow embedding conventions: the filesystem stat operation and the
gitignore matcher are external collaborators and appear as explicit function
parameters; Go int64 values are modelled as Int (the sizes that occur stay
far below 2^63 so overflow never matters); a call to log.Fatal, which
terminates the whole process, is modelled as a distinguished fatal outcome.
-/

/-- Entry data model, mirroring the Go struct `file` (and its twin `File`):
a path, a fetching flag and a size where -1 encodes that the size has not
been fetched yet. -/
structure File where
  filePath : String
  fetching : Bool
  size : Int
deriving DecidableEq, Repr

/-- Outcome of running a background fetch: the Go code calls log.Fatal on a
stat error, which terminates the whole process; otherwise it produces the
updated entry. -/
inductive FetchOutcome where
  | fatal
  | done (f : File)
deriving DecidableEq, Repr

/-- Embedding of File.FetchSize (domain.go lines 25-41) and of the
free-standing FetchSize of part_001 lines 467-479.  Both stat the path and
call log.Fatal(err) when the stat fails; on success they assign the size and
clear the fetching flag.  The external filesystem stat is passed as a
function returning none on failure. -/
def FetchSize (stat : String → Option Int) (f : File) : FetchOutcome :=
  match stat f.filePath with
  | none => .fatal
  | some n => .done { f with size := n, fetching := false }

/-- Digits of a one-decimal fixed-point value: t is the value in tenths. -/
def tenthsString (t : Int) : String :=
  toString (t / 10) ++ "." ++ toString (t % 10)

/-- Model of the Go expression fmt.Sprintf("%.1f", float64(b)/float64(den))
as the number of tenths.  For den a power of two and b below 2^53 the float64
quotient is the exact rational b/den, and the Go formatter rounds it to one
decimal, to nearest with ties to even; that rounding is computed here with
integer arithmetic (Lean Int division is Euclidean, hence floor division for
the positive denominators used). -/
def oneDecTenths (b den : Int) : Int :=
  let num := 10 * b
  let q := num / den
  let r := num % den
  if 2 * r < den then q
  else if den < 2 * r then q + 1
  else if q % 2 = 0 then q else q + 1

/-- Embedding of prettyPrintBytes (domain.go lines 43-60 and part_001 lines
496-513): unit selected by successive thresholds 1024, 1024^2, 1024^3. -/
def prettyPrintBytes (bytes : Int) : String :=
  if bytes < 1024 then toString bytes ++ " B"
  else if bytes < 1024 * 1024 then tenthsString (oneDecTenths bytes 1024) ++ " KiB"
  else if bytes < 1024 * 1024 * 1024 then tenthsString (oneDecTenths bytes (1024 * 1024)) ++ " MiB"
  else tenthsString (oneDecTenths bytes (1024 * 1024 * 1024)) ++ " GiB"

/-- Rounding of an exact rational to the nearest tenth, ties to even, stated
on the rationals.  This is the claim-side description of rendering a value
with one decimal. -/
def nearestEvenTenth (x : ℚ) : Int :=
  let f := Int.floor (10 * x)
  let r := 10 * x - f
  if r < 1 / 2 then f
  else if 1 / 2 < r then f + 1
  else if f % 2 = 0 then f else f + 1

/-- Claim-side one-decimal rendering of a rational value. -/
def oneDecimalOf (x : ℚ) : String := tenthsString (nearestEvenTenth x)

/-- Abstract filesystem tree: regular files and directories. -/
inductive FsEntry where
  | file (name : String)
  | dir (name : String) (children : List FsEntry)

/-- Interface of the external gitignore matcher (spec section 6): given the
path components and whether the path is a directory, decide whether the path
is ignored. -/
abbrev Matcher := List String → Bool → Bool

mutual
/-- Embedding of the WalkDir callback of listGitProjectFiles (domain.go
lines 93-129) on one tree node.  The components list pre names the parent
directory, so the visited path has components pre followed by the node name;
WalkDir starting at "." gives the children of the root bare relative paths,
so the root itself contributes the empty pre.  A directory is skipped
together with its whole subtree when the matcher ignores it, or when its
path is exactly ".git"; directories are never emitted.  An ignored file is
skipped; any other file is emitted. -/
def walkEntry (m : Matcher) (pre : List String) : FsEntry → List (List String)
  | .file name =>
      let c := pre ++ [name]
      if m c false then [] else [c]
  | .dir name children =>
      let c := pre ++ [name]
      if m c true then []
      else if c = [".git"] then []
      else walkEntries m c children

/-- Walk of a list of sibling nodes, concatenating the emitted paths in
traversal order. -/
def walkEntries (m : Matcher) (pre : List String) : List FsEntry → List (List String)
  | [] => []
  | e :: es => walkEntry m pre e ++ walkEntries m pre es
end

/-- Embedding of the enumeration listGitProjectFiles: WalkDir first visits
the root "." itself, whose components list is ["."]; if the matcher ignores
the root directory the whole walk is skipped, otherwise the children are
walked.  The opening of the repository and the loading of the gitignore
patterns are external and are summarized by the matcher parameter. -/
def listGitProjectFiles (m : Matcher) (root : List FsEntry) : List (List String) :=
  if m ["."] true then [] else walkEntries m [] root

mutual
/-- Paths of all regular files of one tree node, with no ignoring at all.
Only file leaves are ever emitted, so membership in this list is the
statement that a path names a regular file of the tree. -/
def fsFiles (pre : List String) : FsEntry → List (List String)
  | .file name => [pre ++ [name]]
  | .dir name children => fsFilesList (pre ++ [name]) children

/-- Paths of all regular files below a list of sibling nodes. -/
def fsFilesList (pre : List String) : List FsEntry → List (List String)
  | [] => []
  | e :: es => fsFiles pre e ++ fsFilesList pre es
end

/-- Recognizer for a directory node named ".git". -/
def isGitDir : FsEntry → Bool
  | .dir name _ => name = ".git"
  | .file _ => false

/-- Root listing with every root-level ".git" directory removed. -/
def removeRootGitDir (root : List FsEntry) : List FsEntry :=
  root.filter (fun e => ! isGitDir e)

/-- Modelled from the spec: the ignore-pattern source is an external
collaborator (spec section 6 lists loadPatterns and match as consumed
capabilities; the gitignore library is not part of this repository).  One
pattern is a predicate on path components and directory flag. -/
abbrev Pattern := List String → Bool → Bool

/-- Modelled from the spec: a path matches the combined ignore-pattern set
when it matches some pattern of the set (spec section 4.1 evaluates a path
against the combined ignore-pattern set). -/
def matchAny (P : List Pattern) : Matcher :=
  fun comps isDir => P.any fun p => p comps isDir

/-- State of the Bubbles list in the message-driven (Elm-style) variant of
part_001: the item slice and the cursor index.  SelectedItem returns the
item at the cursor, or nothing when the list is empty or the cursor is out
of range. -/
structure ModelV1 where
  items : List File
  index : Nat
deriving DecidableEq, Repr

/-- Embedding of the enter branch of model.Update in the message-driven
variant (part_001 lines 103-124).  When the list is empty, or the selected
entry already has a size or is already fetching, the branch is a no-op and
returns no command.  Otherwise it sets the fetching flag on the selected
entry, stores it back at the cursor index, and returns a command; the
command is the background unit that will stat the file, so the spawned unit
is identified by the selected path.  The case of a nil SelectedItem on a
nonempty list makes the Go code call log.Fatalf; that branch is modelled as
a no-op, which only weakens the transition system by adding a stutter. -/
def enterStep (m : ModelV1) : ModelV1 × Option String :=
  match m.items.get? m.index with
  | none => (m, none)
  | some sel =>
    if sel.size ≠ -1 ∨ sel.fetching then (m, none)
    else
      (⟨m.items.set m.index { sel with fetching := true }, m.index⟩, some sel.filePath)

/-- Embedding of the afterFetch branch of model.Update in the message-driven
variant (part_001 lines 82-93): scan the items for the first entry with the
same path as the completed fetch, replace it, and stop. -/
def setFirstMatch (items : List File) (f : File) : List File :=
  match items with
  | [] => []
  | x :: xs => if x.filePath = f.filePath then f :: xs else x :: setFirstMatch xs f

/-- Whole-system state of the message-driven variant after the initial
foundFiles load: the Bubbles list model together with the multiset of
background units currently in flight, each identified by the path it is
fetching. -/
structure Sys where
  model : ModelV1
  pending : List String
deriving DecidableEq, Repr

/-- First entry with the given path, the render-facing row for that path. -/
def findFile (items : List File) (p : String) : Option File :=
  items.find? (fun e => e.filePath = p)

/-- Transition relation of the message-driven variant, parameterized by the
external stat function (sizes returned by the filesystem are non-negative).
enter delivers an enter key press: the command returned by the update step,
if any, becomes a pending background unit.  complete finishes one pending
unit: FetchSize produces the entry with the stat result and a cleared
fetching flag, and the afterFetch message merges it into the list by path;
the cursor may meanwhile have been moved anywhere by the list widget, so the
new index is arbitrary.  other covers every other message (cursor movement,
resize, filtering): the items are untouched.  Fetch failures call log.Fatal
and terminate the process, so they produce no transition at all. -/
inductive Step (stat : String → Nat) : Sys → Sys → Prop
  | enter (s t : Sys)
      (h : t = ⟨(enterStep s.model).1, s.pending ++ (enterStep s.model).2.toList⟩) :
      Step stat s t
  | complete (s t : Sys) (q : String) (i : Nat) (hq : q ∈ s.pending)
      (h : t = ⟨⟨setFirstMatch s.model.items ⟨q, false, (stat q : Int)⟩, i⟩, s.pending.erase q⟩) :
      Step stat s t
  | other (s t : Sys) (i : Nat)
      (h : t = ⟨⟨s.model.items, i⟩, s.pending⟩) :
      Step stat s t

/-- Reachability: any finite sequence of transitions. -/
abbrev Reach (stat : String → Nat) : Sys → Sys → Prop :=
  Relation.ReflTransGen (Step stat)

/-- State immediately after the foundFiles load: one unfetched entry per
enumerated path in order (the walker builds File values with size -1 and a
zero-valued fetching flag), no background unit in flight. -/
def loaded (paths : List String) : Sys :=
  ⟨⟨paths.map (fun q => ⟨q, false, -1⟩), 0⟩, []⟩

/-- Embedding of the enter branch of the pointer-based variant of
model.Update (part_001 lines 257-272).  The handler reads the shared entry
through a pointer: when the entry is already fetching it does nothing; when
the size is unfetched it spawns a goroutine and returns at once.  Crucially
the statement selectedItem.fetching = true is the first statement of the
goroutine body, not of the handler, so at the moment the handler returns the
entry is unchanged; the result is the entry as left by the handler together
with the new number of spawned background units. -/
def enterStepGo (e : File) (spawned : Nat) : File × Nat :=
  if e.fetching then (e, spawned)
  else if e.size = -1 then (e, spawned + 1)
  else (e, spawned)

/-- First statement of the goroutine body spawned by the pointer-based
variant (part_001 line 267): set the fetching flag on the shared entry. -/
def goFetchStart (e : File) : File :=
  { e with fetching := true }

/-- State of the Bubbles list in the pointer-based variant, where items are
pointers into the domain list; a pointer is modelled by its identity, a
natural number.  SelectedItem returns the pointer at the cursor. -/
structure TeaListModel where
  items : List Nat
  index : Nat
deriving DecidableEq, Repr

/-- SelectedItem of the Bubbles list: the pointer at the cursor, or nothing
when the cursor is out of range. -/
def selectedItem (t : TeaListModel) : Option Nat :=
  t.items.get? t.index

/-- Index assigned by the desiredIndex loop of updateFn: the loop walks the
domain list and overwrites desiredIndex at every pointer-equality match, so
the last matching index wins; -1, modelled as none, means no match. -/
def lastIdxOf (s : Nat) : List Nat → Option Nat
  | [] => none
  | x :: xs =>
    match lastIdxOf s xs with
    | some i => some (i + 1)
    | none => if x = s then some 0 else none

/-- Embedding of the updateFn closure of the pointer-based variant
(part_001 lines 327-390).  When the domain list is empty nothing at all is
done.  Otherwise the currently selected pointer is captured, the domain list
is adapted wholesale into the item list while the loop records the index of
the captured pointer, SetItems replaces the items, and Select restores the
cursor when a match was found; with no match the cursor is left where it
was.  The final Send only wakes the render loop and does not touch the
list. -/
def updateFn (files : List Nat) (t : TeaListModel) : TeaListModel :=
  if files.isEmpty then t
  else
    let desired :=
      match selectedItem t with
      | none => none
      | some s => lastIdxOf s files
    match desired with
    | some i => ⟨files, i⟩
    | none => ⟨files, t.index⟩

/-- Claim-side selection re-resolution (spec section 4.4 step 3): scan the
new list for the entry whose path equals the captured selected path and
return its index. -/
def pathIdx (eta : Nat → File) (p : String) : List Nat → Option Nat
  | [] => none
  | y :: ys =>
      if (eta y).filePath = p then some 0 else (pathIdx eta p ys).map (· + 1)

/-- Paths of the entries a pointer list points at, under a heap eta mapping
pointers to entries. -/
def pathsOf (eta : Nat → File) (l : List Nat) : List String :=
  l.map (fun i => (eta i).filePath)

/-- Single-writer invariant of the message-driven variant: entry paths are
pairwise distinct (the walker enumerates each file once), no background unit
is duplicated, and every in-flight unit fetches an entry that is currently
marked fetching. -/
def SysInv (s : Sys) : Prop :=
  (s.model.items.map File.filePath).Nodup
  ∧ s.pending.Nodup
  ∧ ∀ q ∈ s.pending, ∃ e, findFile s.model.items q = some e ∧ e.fetching = true

/-- Concrete stat function used by witnesses: every file has size 42. -/
def statEx : String → Nat := fun _ => 42

/-- Witness state: one enumerated file, nothing in flight. -/
def s0Ex : Sys := loaded ["a.txt"]

/-- Witness state after the enter key: the entry is fetching and one
background unit is in flight. -/
def s1Ex : Sys := ⟨⟨[⟨"a.txt", true, -1⟩], 0⟩, ["a.txt"]⟩

/-- Witness state after the fetch completes: the entry holds size 42. -/
def s2Ex : Sys := ⟨⟨[⟨"a.txt", false, 42⟩], 0⟩, []⟩

/-- Concrete heap used by the selection-preservation witness. -/
def etaEx : Nat → File := fun i =>
  if i = 0 then ⟨"a.txt", false, -1⟩ else ⟨"b.txt", false, -1⟩

/-- Concrete matcher used by the walker witnesses: ignore the node_modules
directory and the a.o file. -/
def mEx : Matcher := fun c _ =>
  decide (c = ["node_modules"]) || decide (c = ["a.o"])

/-- The item list produced by updateFn: untouched for an empty domain list,
otherwise replaced wholesale by the domain list. -/
theorem updateFn_items (files : List Nat) (t : TeaListModel) :
    (updateFn files t).items = if files.isEmpty then t.items else files := by
  unfold updateFn
  by_cases h : files.isEmpty
  · simp [h]
  · cases h1 : selectedItem t with
    | none => simp [h, h1]
    | some s => cases h2 : lastIdxOf s files <;> simp [h, h1, h2]

/-- C9: resync is idempotent: with no intervening domain-list mutation, two
consecutive updateFn passes produce element-wise identical render-facing
item lists. -/
theorem c9_resync_idempotent (files : List Nat) (t : TeaListModel) :
    (updateFn files (updateFn files t)).items = (updateFn files t).items := by
  rw [updateFn_items, updateFn_items]
  by_cases h : files.isEmpty <;> simp [h]

/-- C1: in the pointer-based variant the fetching mark is applied inside
the spawned goroutine, so pressing enter twice on the same unfetched entry
before that goroutine has run spawns two background units, not one; in the
message-driven variant the same double press spawns exactly one command,
because the first press marks the entry synchronously. -/
theorem c1_enter_twice_spawn_count :
    (enterStepGo (enterStepGo ⟨"a.txt", false, -1⟩ 0).1
        (enterStepGo ⟨"a.txt", false, -1⟩ 0).2).2 = 2
    ∧ ((enterStep ⟨[⟨"a.txt", false, -1⟩], 0⟩).2.toList
        ++ (enterStep (enterStep ⟨[⟨"a.txt", false, -1⟩], 0⟩).1).2.toList).length = 1 := by
  decide

/-- C3: in the pointer-based variant, at the moment the enter handler
returns it has already spawned a background unit while the entry is still
not marked fetching (the mark is the first statement of the goroutine body,
executed later); in the message-driven variant the handler stores the
fetching mark into the list before returning the command. -/
theorem c3_mark_not_synchronous :
    ((enterStepGo ⟨"a.txt", false, -1⟩ 0).1.fetching = false
      ∧ (enterStepGo ⟨"a.txt", false, -1⟩ 0).2 = 1
      ∧ goFetchStart ⟨"a.txt", false, -1⟩ = ⟨"a.txt", true, -1⟩)
    ∧ ((enterStep ⟨[⟨"a.txt", false, -1⟩], 0⟩).1.items = [⟨"a.txt", true, -1⟩]
      ∧ (enterStep ⟨[⟨"a.txt", false, -1⟩], 0⟩).2 = some "a.txt") := by
  decide

/-- C2 counterexample: a failed stat during a background fetch does not
leave the entry in an error-visible state; FetchSize calls log.Fatal, which
terminates the whole process, modelled as the fatal outcome. -/
theorem c2_stat_failure_is_fatal :
    FetchSize (fun _ => none) ⟨"a.txt", true, -1⟩ = .fatal := rfl

/-- C2 amended: when the per-entry stat fails, FetchSize terminates the
whole process via log.Fatal (fatal outcome, killing the render loop and all
in-flight fetches; no error completion message exists); when the stat
succeeds the entry completes with the reported size and a cleared fetching
flag. -/
theorem c2_fetch_failure_terminates (stat : String → Option Int) (f : File) (n : Int) :
    (stat f.filePath = none → FetchSize stat f = .fatal)
    ∧ (stat f.filePath = some n →
        FetchSize stat f = .done ⟨f.filePath, false, n⟩) := by
  constructor <;> intro h <;> simp [FetchSize, h]

/-- C2 witness: a successful fetch of a file of size 7 completes. -/
theorem c2_fetch_failure_terminates_witness :
    FetchSize (fun _ => some 7) ⟨"a.txt", true, -1⟩ = .done ⟨"a.txt", false, 7⟩ :=
  (c2_fetch_failure_terminates (fun _ => some 7) ⟨"a.txt", true, -1⟩ 7).2 rfl

/-- The index recorded by the desiredIndex loop addresses the captured
pointer in the domain list. -/
theorem lastIdxOf_get (s : Nat) (l : List Nat) (i : Nat)
    (h : lastIdxOf s l = some i) : l.get? i = some s := by
  induction l generalizing i with
  | nil => simp [lastIdxOf] at h
  | cons x xs ih =>
    unfold lastIdxOf at h
    cases hx : lastIdxOf s xs with
    | some j =>
      rw [hx] at h
      injection h with h
      subst h
      simpa using ih j hx
    | none =>
      rw [hx] at h
      by_cases he : x = s
      · simp only [he, if_true, if_pos] at h
        injection h with h
        subst h
        simp [he]
      · simp [he] at h

/-- A pointer absent from the domain list is never matched by the loop. -/
theorem lastIdxOf_eq_none (s : Nat) (l : List Nat) (h : s ∉ l) :
    lastIdxOf s l = none := by
  induction l with
  | nil => rfl
  | cons x xs ih =>
    simp only [List.mem_cons, not_or] at h
    unfold lastIdxOf
    rw [ih h.2]
    simp [Ne.symm h.1]

/-- A pointer present in the domain list is matched by the loop. -/
theorem lastIdxOf_isSome (s : Nat) (l : List Nat) (h : s ∈ l) :
    (lastIdxOf s l).isSome := by
  induction l with
  | nil => simp at h
  | cons x xs ih =>
    unfold lastIdxOf
    cases hx : lastIdxOf s xs with
    | some j => simp
    | none =>
      rcases List.mem_cons.mp h with h1 | h2
      · simp [h1.symm]
      · have := ih h2
        rw [hx] at this
        simp at this

/-- Under pairwise-distinct paths, the pointer-equality scan of updateFn
finds the same index as the path-equality scan described by the spec. -/
theorem lastIdxOf_eq_pathIdx (eta : Nat → File) (x : Nat) (l : List Nat)
    (hx : x ∈ l) (hnd : (pathsOf eta l).Nodup) :
    lastIdxOf x l = pathIdx eta (eta x).filePath l := by
  induction l with
  | nil => simp at hx
  | cons a tl ih =>
    have hcons : pathsOf eta (a :: tl) = (eta a).filePath :: pathsOf eta tl := rfl
    rw [hcons, List.nodup_cons] at hnd
    rcases List.mem_cons.mp hx with h1 | h2
    · subst h1
      have hnm : x ∉ tl := by
        intro hm
        exact hnd.1 (List.mem_map_of_mem (fun i => (eta i).filePath) hm)
      unfold lastIdxOf pathIdx
      rw [lastIdxOf_eq_none x tl hnm]
      simp
    · have hpa : (eta a).filePath ≠ (eta x).filePath := by
        intro he
        apply hnd.1
        rw [he]
        exact List.mem_map_of_mem (fun i => (eta i).filePath) h2
      have hs := lastIdxOf_isSome x tl h2
      cases hj : lastIdxOf x tl with
      | none => rw [hj] at hs; simp at hs
      | some j =>
        unfold lastIdxOf pathIdx
        rw [hj, if_neg hpa, ← ih h2 hnd.2, hj]
        rfl

/-- C5: selection preservation of updateFn.  Capture the selected pointer x
with path X.  Whenever the domain list still contains x and paths are
pairwise distinct, the rebuilt render-facing list is the domain list, the
cursor addresses exactly the row of x, and the index found by the
pointer-equality loop is the one found by scanning the new list for the
entry whose path equals the captured selected path.  When x is absent the
function falls back safely: the items are still rebuilt and the cursor index
is left unchanged, with no failure. -/
theorem c5_selection_preserved (eta : Nat → File) (files : List Nat)
    (t : TeaListModel) (x : Nat)
    (hne : files ≠ [])
    (hsel : selectedItem t = some x)
    (hnd : (pathsOf eta files).Nodup) :
    (x ∈ files →
        (updateFn files t).items = files
        ∧ (updateFn files t).items.get? (updateFn files t).index = some x
        ∧ pathIdx eta (eta x).filePath files = lastIdxOf x files)
    ∧ (x ∉ files → updateFn files t = ⟨files, t.index⟩) := by
  have hemp : files.isEmpty = false := by
    cases files with
    | nil => exact absurd rfl hne
    | cons a l => rfl
  constructor
  · intro hx
    have hs := lastIdxOf_isSome x files hx
    cases hj : lastIdxOf x files with
    | none => rw [hj] at hs; simp at hs
    | some j =>
      have hres : updateFn files t = ⟨files, j⟩ := by
        unfold updateFn
        rw [hsel]
        simp [hemp, hj]
      refine ⟨by rw [hres], ?_, ?_⟩
      · rw [hres]
        exact lastIdxOf_get x files j hj
      · rw [← lastIdxOf_eq_pathIdx eta x files hx hnd]
        exact hj
  · intro hx
    unfold updateFn
    rw [hsel]
    simp [hemp, lastIdxOf_eq_none x files hx]

/-- C5 witness: two entries with distinct paths, cursor on the second;
after the resync the cursor still addresses that entry. -/
theorem c5_selection_preserved_witness :
    (updateFn [0, 1] ⟨[0, 1], 1⟩).items.get? (updateFn [0, 1] ⟨[0, 1], 1⟩).index
      = some 1 :=
  ((c5_selection_preserved etaEx [0, 1] ⟨[0, 1], 1⟩ 1 (by decide) rfl
      (by decide)).1 (by decide)).2.1

mutual
/-- Every path emitted by the walk of one node is the path of a regular
file of that node: directories are never emitted. -/
theorem walkEntry_sub_fsFiles (m : Matcher) (pre : List String) :
    ∀ (e : FsEntry) (c : List String), c ∈ walkEntry m pre e → c ∈ fsFiles pre e
  | .file name, c, h => by
      by_cases hm : m (pre ++ [name]) false = true
      · simp [walkEntry, hm] at h
      · simp only [walkEntry, hm, Bool.false_eq_true, if_false, if_neg,
          List.mem_singleton] at h
        simp [fsFiles, h]
  | .dir name children, c, h => by
      by_cases hm : m (pre ++ [name]) true = true
      · simp [walkEntry, hm] at h
      · by_cases hg : pre ++ [name] = [".git"]
        · simp [walkEntry, hm, hg] at h
        · simp only [walkEntry, hm, hg, Bool.false_eq_true, if_false] at h
          simp only [fsFiles]
          exact walkEntries_sub_fsFilesList m (pre ++ [name]) children c h

/-- Every path emitted by the walk of a sibling list is the path of a
regular file below one of the siblings. -/
theorem walkEntries_sub_fsFilesList (m : Matcher) (pre : List String) :
    ∀ (es : List FsEntry) (c : List String),
      c ∈ walkEntries m pre es → c ∈ fsFilesList pre es
  | [], c, h => by simp [walkEntries] at h
  | e :: es, c, h => by
      simp only [walkEntries, List.mem_append] at h
      simp only [fsFilesList, List.mem_append]
      rcases h with h | h
      · exact Or.inl (walkEntry_sub_fsFiles m pre e c h)
      · exact Or.inr (walkEntries_sub_fsFilesList m pre es c h)
end

/-- A root-level .git directory contributes nothing to the walk, whatever
the matcher says, so removing it leaves the walk unchanged. -/
theorem walkEntries_removeRootGitDir (m : Matcher) (root : List FsEntry) :
    walkEntries m [] (removeRootGitDir root) = walkEntries m [] root := by
  induction root with
  | nil => rfl
  | cons e es ih =>
    simp only [removeRootGitDir] at ih ⊢
    simp only [List.filter_cons]
    cases e with
    | file name =>
      have hh : (! isGitDir (FsEntry.file name)) = true := rfl
      rw [hh]
      simp [walkEntries, ih]
    | dir name ch =>
      by_cases hg : name = ".git"
      · subst hg
        have hh : (! isGitDir (FsEntry.dir ".git" ch)) = false := rfl
        have h1 : walkEntry m [] (FsEntry.dir ".git" ch) = [] := by
          simp [walkEntry]
        rw [hh]
        simp [walkEntries, h1, ih]
      · have hh : (! isGitDir (FsEntry.dir name ch)) = true := by
          simp [isGitDir, hg]
        rw [hh]
        simp [walkEntries, ih]

/-- C6: for every matcher and filesystem state, the enumeration emits only
regular files (every emitted path names a file leaf of the tree, so
directories never appear as entries), and the version-control metadata
directory is always skipped whether or not it matches an ignore pattern:
deleting the root-level .git directory from the tree leaves the enumeration
unchanged for every matcher. -/
theorem c6_only_files_git_always_skipped (m : Matcher) (root : List FsEntry)
    (c : List String) (h : c ∈ listGitProjectFiles m root) :
    c ∈ fsFilesList [] root
    ∧ listGitProjectFiles m (removeRootGitDir root) = listGitProjectFiles m root := by
  constructor
  · unfold listGitProjectFiles at h
    by_cases hm : m ["."] true = true
    · simp [hm] at h
    · rw [if_neg hm] at h
      exact walkEntries_sub_fsFilesList m [] root c h
  · unfold listGitProjectFiles
    by_cases hm : m ["."] true = true
    · simp [hm]
    · rw [if_neg hm, if_neg hm, walkEntries_removeRootGitDir]

/-- C6 witness: with no ignore patterns, a tree holding one regular file and
a .git directory enumerates exactly the regular file, and removing the .git
directory changes nothing. -/
theorem c6_witness :
    ["go.mod"] ∈ fsFilesList [] [FsEntry.file "go.mod", FsEntry.dir ".git" [FsEntry.file "HEAD"]]
    ∧ listGitProjectFiles (fun _ _ => false)
        (removeRootGitDir [FsEntry.file "go.mod", FsEntry.dir ".git" [FsEntry.file "HEAD"]])
      = listGitProjectFiles (fun _ _ => false)
        [FsEntry.file "go.mod", FsEntry.dir ".git" [FsEntry.file "HEAD"]] :=
  c6_only_files_git_always_skipped (fun _ _ => false)
    [FsEntry.file "go.mod", FsEntry.dir ".git" [FsEntry.file "HEAD"]]
    ["go.mod"] (by decide)

/-- C7: a directory matched by the ignore set is skipped with its entire
subtree, independently of the subtree contents (no descent); a file matched
by the ignore set is skipped individually while its siblings are still
visited. -/
theorem c7_ignore_skip_semantics (m : Matcher) (pre : List String)
    (dname : String) (ch : List FsEntry) (fname : String)
    (es1 es2 : List FsEntry)
    (hd : m (pre ++ [dname]) true = true)
    (hf : m (pre ++ [fname]) false = true) :
    walkEntry m pre (.dir dname ch) = []
    ∧ walkEntries m pre (es1 ++ .file fname :: es2) = walkEntries m pre (es1 ++ es2) := by
  constructor
  · simp [walkEntry, hd]
  · induction es1 with
    | nil => simp [walkEntries, walkEntry, hf]
    | cons e es ih => simp [walkEntries, ih]

/-- C7 witness: an ignored directory whose subtree holds a file contributes
nothing, and an ignored object file between two siblings is skipped while
the siblings still appear. -/
theorem c7_witness :
    walkEntry mEx [] (.dir "node_modules" [.file "x"]) = []
    ∧ walkEntries mEx [] ([.file "m.go"] ++ .file "a.o" :: [.file "keep"])
      = walkEntries mEx [] ([.file "m.go"] ++ [.file "keep"]) :=
  c7_ignore_skip_semantics mEx [] "node_modules" [.file "x"] "a.o"
    [.file "m.go"] [.file "keep"] (by decide) (by decide)

mutual
/-- Enlarging the matcher can only remove walked files of one node. -/
theorem walkEntry_length_mono (m1 m2 : Matcher)
    (h : ∀ c d, m1 c d = true → m2 c d = true) (pre : List String) :
    ∀ e : FsEntry, (walkEntry m2 pre e).length ≤ (walkEntry m1 pre e).length
  | .file name => by
      by_cases h2 : m2 (pre ++ [name]) false = true
      · simp [walkEntry, h2]
      · have h1 : ¬ m1 (pre ++ [name]) false = true := fun hh => h2 (h _ _ hh)
        simp [walkEntry, h1, h2]
  | .dir name ch => by
      by_cases h2 : m2 (pre ++ [name]) true = true
      · simp [walkEntry, h2]
      · have h1 : ¬ m1 (pre ++ [name]) true = true := fun hh => h2 (h _ _ hh)
        by_cases hg : pre ++ [name] = [".git"]
        · simp [walkEntry, h1, h2, hg]
        · simp only [walkEntry, h1, h2, hg, Bool.false_eq_true, if_false]
          exact walkEntries_length_mono m1 m2 h (pre ++ [name]) ch

/-- Enlarging the matcher can only remove walked files of a sibling list. -/
theorem walkEntries_length_mono (m1 m2 : Matcher)
    (h : ∀ c d, m1 c d = true → m2 c d = true) (pre : List String) :
    ∀ es : List FsEntry,
      (walkEntries m2 pre es).length ≤ (walkEntries m1 pre es).length
  | [] => le_refl _
  | e :: es => by
      simp only [walkEntries, List.length_append]
      exact Nat.add_le_add (walkEntry_length_mono m1 m2 h pre e)
        (walkEntries_length_mono m1 m2 h pre es)
end

/-- A path ignored by a pattern set is still ignored after a pattern is
added to the set. -/
theorem matchAny_insert (P1 P2 : List Pattern) (r : Pattern)
    (c : List String) (d : Bool) (h : matchAny (P1 ++ P2) c d = true) :
    matchAny (P1 ++ r :: P2) c d = true := by
  simp only [matchAny, List.any_append, List.any_cons, Bool.or_eq_true] at h ⊢
  tauto

/-- C8: removing one ignore rule from the pattern set never decreases the
number of enumerated files: for every filesystem state and every split of
the pattern set around a rule r, the count without r is at least the count
with r. -/
theorem c8_remove_rule_count_mono (root : List FsEntry)
    (P1 P2 : List Pattern) (r : Pattern) :
    (listGitProjectFiles (matchAny (P1 ++ P2)) root).length
      ≥ (listGitProjectFiles (matchAny (P1 ++ r :: P2)) root).length := by
  unfold listGitProjectFiles
  by_cases h2 : matchAny (P1 ++ r :: P2) ["."] true = true
  · simp [h2]
  · have h1 : ¬ matchAny (P1 ++ P2) ["."] true = true :=
      fun hh => h2 (matchAny_insert P1 P2 r ["."] true hh)
    rw [if_neg h1, if_neg h2]
    exact walkEntries_length_mono (matchAny (P1 ++ P2)) (matchAny (P1 ++ r :: P2))
      (fun c d => matchAny_insert P1 P2 r c d) [] root

/-- The tenths computed with integer arithmetic agree with rounding the
exact rational quotient to the nearest tenth, ties to even. -/
theorem oneDecTenths_eq_nearestEvenTenth (b : Int) (d : Nat) (hd : 0 < d) :
    oneDecTenths b (d : Int) = nearestEvenTenth ((b : ℚ) / (d : ℚ)) := by
  have hdQ : (0 : ℚ) < (d : ℚ) := by exact_mod_cast hd
  have hdQ0 : ((d : ℚ)) ≠ 0 := ne_of_gt hdQ
  have hx : 10 * ((b : ℚ) / (d : ℚ)) = ((10 * b : ℤ) : ℚ) / ((d : ℕ) : ℚ) := by
    push_cast
    ring
  have hfl : Int.floor (10 * ((b : ℚ) / (d : ℚ))) = (10 * b) / (d : Int) := by
    rw [hx, Rat.floor_intCast_div_natCast]
  have hnq : ((10 * b : ℤ) : ℚ)
      = (d : ℚ) * ((((10 * b) / (d : Int)) : ℤ) : ℚ) + (((10 * b) % (d : Int) : ℤ) : ℚ) := by
    exact_mod_cast (Int.ediv_add_emod (10 * b) (d : Int)).symm
  have hnq' : 10 * (b : ℚ)
      = (d : ℚ) * ((((10 * b) / (d : Int)) : ℤ) : ℚ) + (((10 * b) % (d : Int) : ℤ) : ℚ) := by
    push_cast at hnq
    linarith [hnq]
  have hfr : 10 * ((b : ℚ) / (d : ℚ)) - ((((10 * b) / (d : Int)) : ℤ) : ℚ)
      = (((10 * b) % (d : Int) : ℤ) : ℚ) / (d : ℚ) := by
    rw [hx]
    field_simp
    linarith [hnq']
  simp only [oneDecTenths, nearestEvenTenth]
  rw [hfl]
  rcases lt_trichotomy (2 * ((10 * b) % (d : Int))) (d : Int) with hlt | heq | hgt
  · have hQ : 10 * ((b : ℚ) / (d : ℚ)) - ((((10 * b) / (d : Int)) : ℤ) : ℚ) < 1 / 2 := by
      rw [hfr, div_lt_iff hdQ]
      have hc : ((2 * ((10 * b) % (d : Int)) : ℤ) : ℚ) < (((d : Nat) : ℤ) : ℚ) := by
        exact_mod_cast hlt
      push_cast at hc ⊢
      linarith
    rw [if_pos hlt, if_pos hQ]
  · have hQ : 10 * ((b : ℚ) / (d : ℚ)) - ((((10 * b) / (d : Int)) : ℤ) : ℚ) = 1 / 2 := by
      rw [hfr, div_eq_iff hdQ0]
      have hc : ((2 * ((10 * b) % (d : Int)) : ℤ) : ℚ) = (((d : Nat) : ℤ) : ℚ) := by
        exact_mod_cast heq
      push_cast at hc ⊢
      linarith
    have hI1 : ¬ (2 * ((10 * b) % (d : Int)) < (d : Int)) := by omega
    have hI2 : ¬ ((d : Int) < 2 * ((10 * b) % (d : Int))) := by omega
    have hQ1 : ¬ (10 * ((b : ℚ) / (d : ℚ)) - ((((10 * b) / (d : Int)) : ℤ) : ℚ) < 1 / 2) := by
      rw [hQ]
      exact lt_irrefl _
    have hQ2 : ¬ (1 / 2 < 10 * ((b : ℚ) / (d : ℚ)) - ((((10 * b) / (d : Int)) : ℤ) : ℚ)) := by
      rw [hQ]
      exact lt_irrefl _
    rw [if_neg hI1, if_neg hI2, if_neg hQ1, if_neg hQ2]
  · have hQ : 1 / 2 < 10 * ((b : ℚ) / (d : ℚ)) - ((((10 * b) / (d : Int)) : ℤ) : ℚ) := by
      rw [hfr, lt_div_iff hdQ]
      have hc : (((d : Nat) : ℤ) : ℚ) < ((2 * ((10 * b) % (d : Int)) : ℤ) : ℚ) := by
        exact_mod_cast hgt
      push_cast at hc ⊢
      linarith
    have hI1 : ¬ (2 * ((10 * b) % (d : Int)) < (d : Int)) := by omega
    have hI2 : (d : Int) < 2 * ((10 * b) % (d : Int)) := hgt
    have hQ1 : ¬ (10 * ((b : ℚ) / (d : ℚ)) - ((((10 * b) / (d : Int)) : ℤ) : ℚ) < 1 / 2) :=
      not_lt_of_gt hQ
    rw [if_neg hI1, if_pos hI2, if_neg hQ1, if_pos hQ]

/-- C10: for every non-negative byte count the displayed size string is
chosen by thresholds of powers of 1024: exact integer with unit B below
1024, otherwise the quotient by the matching power of 1024 rendered with one
decimal and unit KiB, MiB or GiB. -/
theorem c10_prettyPrintBytes_thresholds (b : Int) (hb : 0 ≤ b) :
    (b < 1024 → prettyPrintBytes b = toString b ++ " B")
    ∧ (1024 ≤ b → b < 1024 ^ 2 →
        prettyPrintBytes b = oneDecimalOf ((b : ℚ) / 1024) ++ " KiB")
    ∧ (1024 ^ 2 ≤ b → b < 1024 ^ 3 →
        prettyPrintBytes b = oneDecimalOf ((b : ℚ) / 1024 ^ 2) ++ " MiB")
    ∧ (1024 ^ 3 ≤ b →
        prettyPrintBytes b = oneDecimalOf ((b : ℚ) / 1024 ^ 3) ++ " GiB") := by
  refine ⟨fun h1 => ?_, fun h1 h2 => ?_, fun h1 h2 => ?_, fun h1 => ?_⟩
  · simp [prettyPrintBytes, h1]
  · have hk := oneDecTenths_eq_nearestEvenTenth b 1024 (by norm_num)
    norm_num at hk h2
    unfold prettyPrintBytes
    rw [if_neg (by omega : ¬ b < 1024), if_pos (by omega : b < 1024 * 1024)]
    unfold oneDecimalOf
    rw [hk]
  · have hk := oneDecTenths_eq_nearestEvenTenth b 1048576 (by norm_num)
    norm_num at hk h1 h2 ⊢
    unfold prettyPrintBytes
    rw [if_neg (by omega : ¬ b < 1024), if_neg (by omega : ¬ b < 1024 * 1024),
      if_pos (by omega : b < 1024 * 1024 * 1024)]
    unfold oneDecimalOf
    norm_num
    rw [hk]
  · have hk := oneDecTenths_eq_nearestEvenTenth b 1073741824 (by norm_num)
    norm_num at hk h1 ⊢
    unfold prettyPrintBytes
    rw [if_neg (by omega : ¬ b < 1024), if_neg (by omega : ¬ b < 1024 * 1024),
      if_neg (by omega : ¬ b < 1024 * 1024 * 1024)]
    unfold oneDecimalOf
    norm_num
    rw [hk]

/-- C10 witness: 5000 bytes fall in the KiB band and render as the
one-decimal value of 5000/1024. -/
theorem c10_witness :
    prettyPrintBytes 5000 = oneDecimalOf ((5000 : ℚ) / 1024) ++ " KiB" :=
  (c10_prettyPrintBytes_thresholds 5000 (by norm_num)).2.1 (by norm_num) (by norm_num)

/-- SetItem at an index whose entry shares its path with the new value
leaves the path sequence of the list unchanged. -/
theorem map_filePath_set (l : List File) (i : Nat) (a sel : File)
    (hget : l.get? i = some sel) (hpath : a.filePath = sel.filePath) :
    (l.set i a).map File.filePath = l.map File.filePath := by
  induction l generalizing i with
  | nil => simp at hget
  | cons x xs ih =>
    cases i with
    | zero =>
      simp only [List.get?] at hget
      injection hget with hget
      subst hget
      simp [hpath]
    | succ n =>
      simp only [List.get?] at hget
      simp [ih n hget]

/-- Replacing the entry at an index whose path differs from q leaves the
row found for q unchanged. -/
theorem findFile_set_ne (l : List File) (i : Nat) (a : File) (q : String)
    (ha : a.filePath ≠ q)
    (hsel : ∀ e, l.get? i = some e → e.filePath ≠ q) :
    findFile (l.set i a) q = findFile l q := by
  induction l generalizing i with
  | nil => rfl
  | cons x xs ih =>
    cases i with
    | zero =>
      have hx : x.filePath ≠ q := hsel x rfl
      show List.find? _ (a :: xs) = List.find? _ (x :: xs)
      rw [List.find?_cons_of_neg _ (by simp [ha]), List.find?_cons_of_neg _ (by simp [hx])]
    | succ n =>
      show List.find? _ (x :: xs.set n a) = List.find? _ (x :: xs)
      by_cases hx : x.filePath = q
      · rw [List.find?_cons_of_pos _ (by simp [hx]), List.find?_cons_of_pos _ (by simp [hx])]
      · rw [List.find?_cons_of_neg _ (by simp [hx]), List.find?_cons_of_neg _ (by simp [hx])]
        exact ih n (fun e he => hsel e he)

/-- Under pairwise-distinct paths, replacing the entry at the index holding
path q makes the lookup of q return the new value. -/
theorem findFile_set_self (l : List File) (i : Nat) (sel a : File) (q : String)
    (hget : l.get? i = some sel) (hselq : sel.filePath = q) (ha : a.filePath = q)
    (hnd : (l.map File.filePath).Nodup) :
    findFile (l.set i a) q = some a := by
  induction l generalizing i with
  | nil => simp at hget
  | cons x xs ih =>
    cases i with
    | zero =>
      simp only [List.get?] at hget
      injection hget with hget
      subst hget
      show List.find? _ (a :: xs) = some a
      rw [List.find?_cons_of_pos _ (by simp [ha])]
    | succ n =>
      simp only [List.get?] at hget
      rw [List.map_cons, List.nodup_cons] at hnd
      have hmem : sel ∈ xs := List.get?_mem hget
      have hxq : x.filePath ≠ q := by
        intro he
        apply hnd.1
        rw [he, ← hselq]
        exact List.mem_map_of_mem File.filePath hmem
      show List.find? _ (x :: xs.set n a) = some a
      rw [List.find?_cons_of_neg _ (by simp [hxq])]
      exact ih n hget hnd.2

/-- Under pairwise-distinct paths, the lookup of the path of the entry at an
index returns exactly that entry. -/
theorem findFile_get_of_nodup (l : List File) (i : Nat) (e : File)
    (hget : l.get? i = some e) (hnd : (l.map File.filePath).Nodup) :
    findFile l e.filePath = some e := by
  induction l generalizing i with
  | nil => simp at hget
  | cons x xs ih =>
    cases i with
    | zero =>
      simp only [List.get?] at hget
      injection hget with hget
      subst hget
      show List.find? _ (x :: xs) = some x
      rw [List.find?_cons_of_pos _ (by simp)]
    | succ n =>
      simp only [List.get?] at hget
      rw [List.map_cons, List.nodup_cons] at hnd
      have hmem : e ∈ xs := List.get?_mem hget
      have hxq : x.filePath ≠ e.filePath := by
        intro he
        apply hnd.1
        rw [he]
        exact List.mem_map_of_mem File.filePath hmem
      show List.find? _ (x :: xs) = some e
      rw [List.find?_cons_of_neg _ (by simp [hxq])]
      exact ih n hget hnd.2

/-- The afterFetch merge never changes the path sequence of the list. -/
theorem setFirstMatch_map (l : List File) (f : File) :
    (setFirstMatch l f).map File.filePath = l.map File.filePath := by
  induction l with
  | nil => rfl
  | cons x xs ih =>
    unfold setFirstMatch
    by_cases hx : x.filePath = f.filePath
    · rw [if_pos hx]
      simp [hx]
    · rw [if_neg hx]
      simp [ih]

/-- The afterFetch merge for one path leaves the row found for any other
path unchanged. -/
theorem findFile_setFirstMatch_ne (l : List File) (f : File) (q : String)
    (h : f.filePath ≠ q) :
    findFile (setFirstMatch l f) q = findFile l q := by
  induction l with
  | nil => rfl
  | cons x xs ih =>
    unfold setFirstMatch
    by_cases hx : x.filePath = f.filePath
    · rw [if_pos hx]
      have hxq : x.filePath ≠ q := fun he => h (hx.symm.trans he)
      show List.find? _ (f :: xs) = List.find? _ (x :: xs)
      rw [List.find?_cons_of_neg _ (by simp [h]), List.find?_cons_of_neg _ (by simp [hxq])]
    · rw [if_neg hx]
      show List.find? _ (x :: setFirstMatch xs f) = List.find? _ (x :: xs)
      by_cases hxq : x.filePath = q
      · rw [List.find?_cons_of_pos _ (by simp [hxq]), List.find?_cons_of_pos _ (by simp [hxq])]
      · rw [List.find?_cons_of_neg _ (by simp [hxq]), List.find?_cons_of_neg _ (by simp [hxq])]
        exact ih

/-- When some row holds the path of the completed fetch, the afterFetch
merge makes the lookup of that path return the merged entry. -/
theorem findFile_setFirstMatch_self (l : List File) (f : File) (e : File)
    (h : findFile l f.filePath = some e) :
    findFile (setFirstMatch l f) f.filePath = some f := by
  induction l with
  | nil => simp [findFile] at h
  | cons x xs ih =>
    unfold setFirstMatch
    by_cases hx : x.filePath = f.filePath
    · rw [if_pos hx]
      show List.find? _ (f :: xs) = some f
      rw [List.find?_cons_of_pos _ (by simp)]
    · rw [if_neg hx]
      show List.find? _ (x :: setFirstMatch xs f) = some f
      rw [List.find?_cons_of_neg _ (by simp [hx])]
      apply ih
      have h' : List.find? (fun e => e.filePath = f.filePath) (x :: xs) = some e := h
      rwa [List.find?_cons_of_neg _ (by simp [hx])] at h'

/-- Case analysis of the enter branch: either it is a no-op returning no
command, or the selected entry was unfetched and it is stored back marked
fetching while one command for its path is returned. -/
theorem enterStep_spec (m : ModelV1) :
    ((enterStep m).1 = m ∧ (enterStep m).2 = none)
    ∨ ∃ sel, m.items.get? m.index = some sel ∧ sel.size = -1 ∧ sel.fetching = false
        ∧ (enterStep m).1 = ⟨m.items.set m.index ⟨sel.filePath, true, sel.size⟩, m.index⟩
        ∧ (enterStep m).2 = some sel.filePath := by
  unfold enterStep
  cases hg : m.items.get? m.index with
  | none => simp
  | some sel =>
    dsimp only
    by_cases hc : sel.size ≠ -1 ∨ sel.fetching = true
    · rw [if_pos hc]
      exact Or.inl ⟨rfl, rfl⟩
    · rw [if_neg hc]
      push_neg at hc
      right
      exact ⟨sel, rfl, hc.1, by simpa using hc.2, rfl, rfl⟩

/-- One transition preserves the single-writer invariant. -/
theorem sysInv_step {stat : String → Nat} {s t : Sys} (hst : Step stat s t)
    (hinv : SysInv s) : SysInv t := by
  obtain ⟨hnd, hpnd, hpend⟩ := hinv
  cases hst with
  | enter h =>
    subst h
    rcases enterStep_spec s.model with ⟨h1, h2⟩ | ⟨sel, hget, hsize, hfetch, h1, h2⟩
    · rw [SysInv, h1, h2]
      exact ⟨hnd, by simpa using hpnd, by simpa using hpend⟩
    · have hnotin : sel.filePath ∉ s.pending := by
        intro hmem
        obtain ⟨e, hfe, hft⟩ := hpend sel.filePath hmem
        have hself := findFile_get_of_nodup s.model.items s.model.index sel hget hnd
        rw [hself] at hfe
        injection hfe with hfe
        rw [← hfe, hfetch] at hft
        exact Bool.false_ne_true hft
      rw [SysInv, h1, h2]
      refine ⟨?_, ?_, ?_⟩
      · show ((s.model.items.set s.model.index
            ⟨sel.filePath, true, sel.size⟩).map File.filePath).Nodup
        rw [map_filePath_set s.model.items s.model.index
          ⟨sel.filePath, true, sel.size⟩ sel hget rfl]
        exact hnd
      · simp only [Option.toList_some]
        exact List.Nodup.append hpnd (List.nodup_singleton _)
          (by simpa [List.disjoint_singleton] using hnotin)
      · intro q hq
        simp only [Option.toList_some] at hq
        rcases List.mem_append.mp hq with hq | hq
        · have hqne : q ≠ sel.filePath := fun he => hnotin (he ▸ hq)
          obtain ⟨e, hfe, hft⟩ := hpend q hq
          refine ⟨e, ?_, hft⟩
          have hpres := findFile_set_ne s.model.items s.model.index
            ⟨sel.filePath, true, sel.size⟩ q (fun he => hqne (by simpa using he.symm))
            (by
              intro e' he'
              rw [hget] at he'
              injection he' with he'
              subst he'
              exact fun he2 => hqne he2.symm)
          rw [hpres]
          exact hfe
        · have hq' : q = sel.filePath := by simpa using hq
          subst hq'
          refine ⟨⟨sel.filePath, true, sel.size⟩, ?_, rfl⟩
          exact findFile_set_self s.model.items s.model.index sel
            ⟨sel.filePath, true, sel.size⟩ sel.filePath hget rfl rfl hnd
  | complete q i hqmem h =>
    subst h
    refine ⟨?_, ?_, ?_⟩
    · show ((setFirstMatch s.model.items ⟨q, false, (stat q : Int)⟩).map File.filePath).Nodup
      rw [setFirstMatch_map]
      exact hnd
    · exact hpnd.erase q
    · intro q' hq'
      have hsplit := (List.Nodup.mem_erase_iff hpnd).mp hq'
      obtain ⟨e, hfe, hft⟩ := hpend q' hsplit.2
      refine ⟨e, ?_, hft⟩
      have hpres := findFile_setFirstMatch_ne s.model.items
        ⟨q, false, (stat q : Int)⟩ q' (fun he => hsplit.1 (by simpa using he.symm))
      rw [hpres]
      exact hfe
  | other i h =>
    subst h
    exact ⟨hnd, hpnd, hpend⟩

/-- One transition preserves a fetched row: its size and cleared fetching
flag survive every message. -/
theorem fetched_step {stat : String → Nat} {s t : Sys} {p : String} {e0 : File}
    (hst : Step stat s t) (hinv : SysInv s)
    (hf : findFile s.model.items p = some e0)
    (hfetch0 : e0.fetching = false) (hsize0 : e0.size ≠ -1) :
    findFile t.model.items p = some e0 := by
  obtain ⟨hnd, hpnd, hpend⟩ := hinv
  cases hst with
  | enter h =>
    subst h
    rcases enterStep_spec s.model with ⟨h1, h2⟩ | ⟨sel, hget, hsize, hfetch, h1, h2⟩
    · rw [h1]
      exact hf
    · have hselp : sel.filePath ≠ p := by
        intro he
        have hself := findFile_get_of_nodup s.model.items s.model.index sel hget hnd
        rw [he, hf] at hself
        injection hself with hself
        rw [← hself] at hsize
        exact hsize0 hsize
      rw [h1]
      have hpres := findFile_set_ne s.model.items s.model.index
        ⟨sel.filePath, true, sel.size⟩ p (by simpa using hselp)
        (by
          intro e' he'
          rw [hget] at he'
          injection he' with he'
          subst he'
          exact hselp)
      show findFile (s.model.items.set s.model.index ⟨sel.filePath, true, sel.size⟩) p
        = some e0
      rw [hpres]
      exact hf
  | complete q i hqmem h =>
    subst h
    have hqp : q ≠ p := by
      intro he
      obtain ⟨e, hfe, hft⟩ := hpend q hqmem
      rw [he, hf] at hfe
      injection hfe with hfe
      rw [← hfe, hfetch0] at hft
      exact Bool.false_ne_true hft
    show findFile (setFirstMatch s.model.items ⟨q, false, (stat q : Int)⟩) p = some e0
    rw [findFile_setFirstMatch_ne s.model.items _ p hqp]
    exact hf
  | other i h =>
    subst h
    exact hf

/-- The single-writer invariant holds along every reachable execution. -/
theorem sysInv_reach {stat : String → Nat} {s t : Sys} (h : Reach stat s t)
    (hinv : SysInv s) : SysInv t := by
  induction h with
  | refl => exact hinv
  | tail hab hbc ih => exact sysInv_step hbc ih

/-- A fetched row survives every reachable execution. -/
theorem fetched_reach {stat : String → Nat} {s t : Sys} {p : String} {e0 : File}
    (h : Reach stat s t) (hinv : SysInv s)
    (hf : findFile s.model.items p = some e0)
    (hfetch0 : e0.fetching = false) (hsize0 : e0.size ≠ -1) :
    findFile t.model.items p = some e0 := by
  induction h with
  | refl => exact hf
  | tail hab hbc ih => exact fetched_step hbc (sysInv_reach hab hinv) ih hfetch0 hsize0

/-- The freshly loaded store satisfies the single-writer invariant as soon
as the enumerated paths are pairwise distinct. -/
theorem sysInv_loaded (paths : List String) (h : paths.Nodup) :
    SysInv (loaded paths) := by
  refine ⟨?_, by simp [loaded], by simp [loaded]⟩
  show ((paths.map fun q => (⟨q, false, -1⟩ : File)).map File.filePath).Nodup
  rw [List.map_map]
  have hcomp : (File.filePath ∘ fun q => (⟨q, false, -1⟩ : File)) = id := rfl
  rw [hcomp, List.map_id]
  exact h

/-- C4: in the message-driven variant, once a fetch for path p has completed
with size n (the row found for p is the Fetched entry with size n and a
cleared fetching flag, produced by completeFetch), every subsequently
reachable state still shows exactly that row, so every later resync renders
size n for p; in particular p never returns to the unfetched size -1 nor to
a set fetching flag: Fetched is absorbing under all post-load operations. -/
theorem c4_fetched_absorbing (stat : String → Nat) (paths : List String)
    (s t : Sys) (p : String) (n : Nat)
    (hnd : paths.Nodup)
    (h1 : Reach stat (loaded paths) s)
    (h2 : Reach stat s t)
    (hf : findFile s.model.items p = some ⟨p, false, (n : Int)⟩) :
    findFile t.model.items p = some ⟨p, false, (n : Int)⟩ :=
  fetched_reach h2 (sysInv_reach h1 (sysInv_loaded paths hnd)) hf rfl
    (by show (n : Int) ≠ -1; omega)

/-- C4 witness: load one file, request its fetch, complete it with size 42;
from that state every continuation, here the empty one, still shows the
fetched row. -/
theorem c4_fetched_absorbing_witness :
    findFile s2Ex.model.items "a.txt" = some ⟨"a.txt", false, ((42 : Nat) : Int)⟩ := by
  have st1 : Step statEx s0Ex s1Ex := Step.enter s0Ex s1Ex (by decide)
  have st2 : Step statEx s1Ex s2Ex := Step.complete s1Ex s2Ex "a.txt" 0 (by decide) (by decide)
  have hreach : Reach statEx s0Ex s2Ex :=
    Relation.ReflTransGen.head st1 (Relation.ReflTransGen.head st2 Relation.ReflTransGen.refl)
  exact c4_fetched_absorbing statEx ["a.txt"] s2Ex s2Ex "a.txt" 42 (by decide)
    hreach Relation.ReflTransGen.refl (by decide)
